import Mathlib

/-!
Verification of the termpose translator/codec subsystem (src/rust/src/translators.rs)
against its specification. The term-tree type `Wood` and its basic accessors are
external to the translator source file; they are modelled from the spec (§3, §4.3).
-/

/-- The term tree (spec §3): a Leaf carries text and a position, a Branch (the
spec's List) carries an ordered sequence of children and a position. -/
inductive Wood where
  | leafv (s : String) (line : Int) (column : Int)
  | branchv (children : List Wood) (line : Int) (column : Int)

/-- Modelled from the spec: `line_and_col` returns the node's own position (spec §3:
"position is always present and refers to the node's start"). -/
def Wood.line_and_col : Wood → Int × Int
  | .leafv _ l c => (l, c)
  | .branchv _ l c => (l, c)

/-- Modelled from the spec: the "leading text" of a node (spec §4.3) — the text of a
leaf, or the leading text of a branch's first child ("" for an empty branch). -/
def Wood.initial_str : Wood → String
  | .leafv s _ _ => s
  | .branchv [] _ _ => ""
  | .branchv (c :: _) _ _ => c.initial_str

/-- Modelled from the spec: a branch's children; a leaf has none (the spec's
composites operate on List nodes, §3). -/
def Wood.contents : Wood → List Wood
  | .leafv _ _ _ => []
  | .branchv l _ _ => l

/-- Modelled from the spec: everything after the first child. -/
def Wood.tail (w : Wood) : List Wood :=
  w.contents.drop 1

/-- Declared position of woods synthesized by the encoders (the tree-building
conversions live outside this source file; the position of a synthesized node is
irrelevant to every decode path). -/
def synthLine : Int := 0

/-- Column counterpart of `synthLine`. -/
def synthCol : Int := 0

/-- Build a leaf wood from a string, as the `.into()` conversions do. -/
def mkLeaf (s : String) : Wood := .leafv s synthLine synthCol

/-- Build a branch wood from children, as the `branch!` macro does. -/
def mkBranch (l : List Wood) : Wood := .branchv l synthLine synthCol

/-- The kinds of `std::num::ParseIntError` (external std type appearing as a cause). -/
inductive IntErrorKind where
  | empty
  | invalidDigit
  | posOverflow
  | negOverflow
deriving DecidableEq

/-- The chained lower-level cause of a decode error. In this source the only causes
ever attached are the std numeric-parse errors (from `FromStr`). -/
inductive Cause where
  | intErr (k : IntErrorKind)
  | floatErr
deriving DecidableEq

/-- The decode error: position, message and optional chained cause
(`DewoodifyError` in the source). -/
structure DewoodifyError where
  line : Int
  column : Int
  msg : String
  cause : Option Cause
deriving DecidableEq

/-- `DewoodifyError::new`: position taken from the offending node, no cause. -/
def DewoodifyError.new (source : Wood) (msg : String) : DewoodifyError :=
  ⟨(Wood.line_and_col source).1, (Wood.line_and_col source).2, msg, none⟩

/-- `DewoodifyError::new_with_cause`. -/
def DewoodifyError.new_with_cause (source : Wood) (msg : String) (cause : Option Cause) :
    DewoodifyError :=
  ⟨(Wood.line_and_col source).1, (Wood.line_and_col source).2, msg, cause⟩

/-! ### Model of std decimal formatting and parsing

The numeric `to_string`/`from_str` used by the stringifying codecs are std library
code, external to this repository; the spec (§4.7) fixes them as "standard numeric
formatting". They are modelled here for `i64` (the macro instantiates the same code
for every numeric width). -/

/-- Little-endian decimal digits of a natural number, with explicit fuel (the fuel
`n` always suffices for `n` itself). -/
def digitsRev (fuel : Nat) (m : Nat) : List Nat :=
  match fuel with
  | 0 => []
  | fuel' + 1 => if m = 0 then [] else m % 10 :: digitsRev fuel' (m / 10)

/-- Decimal digit characters of a natural number, most significant first
(std `Display` for unsigned integers). -/
def natToChars (m : Nat) : List Char :=
  if m = 0 then ['0'] else ((digitsRev m m).reverse).map Nat.digitChar

/-- std `Display` for an unsigned integer. -/
def natToString (m : Nat) : String := String.mk (natToChars m)

/-- std `Display` for `i64`: minus sign for negatives, then decimal digits. -/
def i64_to_string (n : Int) : String :=
  if n < 0 then "-" ++ natToString (-n).toNat else natToString n.toNat

/-- Left-to-right accumulation of decimal digit characters
(std integer `FromStr`'s digit loop); `none` on any non-digit character. -/
def parseDigits : List Char → Nat → Option Nat
  | [], acc => some acc
  | c :: r, acc => if c.isDigit then parseDigits r (acc * 10 + (c.toNat - 48)) else none

/-- The digit-run stage of std `i64::from_str`: a nonempty run of decimal digits,
negated when a minus sign was consumed, rejecting values outside `[-2^63, 2^63)`
(extensionally equivalent to std's per-step checked arithmetic). -/
def i64_of_digits (neg : Bool) (digs : List Char) : Except IntErrorKind Int :=
  match digs with
  | [] => .error .empty
  | _ :: _ =>
    match parseDigits digs 0 with
    | none => .error .invalidDigit
    | some m =>
      if neg then
        if m ≤ 2 ^ 63 then .ok (-(m : Int)) else .error .negOverflow
      else
        if m ≤ 2 ^ 63 - 1 then .ok (m : Int) else .error .posOverflow

/-- std `i64::from_str`: optional sign, then the digit run. -/
def i64_from_str (s : String) : Except IntErrorKind Int :=
  match s.data with
  | [] => .error .empty
  | c :: rest =>
    if c = '-' then i64_of_digits true rest
    else if c = '+' then i64_of_digits false rest
    else i64_of_digits false (c :: rest)

/-! ### Model of `f64`

`f64` and its std formatting are external; they are modelled from the spec (§4.7:
"standard numeric formatting", §8 round-trip law). A non-NaN double is represented
by its canonical shortest `Display` rendering, which std guarantees parses back to
the same value; NaN is kept separate because `Display` renders it as "NaN" and
`from_str` accepts that, while IEEE `==` makes NaN unequal to itself. -/
inductive F64 where
  | nan
  | num (canonicalRepr : String)
deriving DecidableEq

/-- A character that may appear in a float literal accepted by `f64::from_str`. -/
def floatChar (c : Char) : Bool :=
  c.isDigit || c = '-' || c = '+' || c = '.' || c = 'e' || c = 'E' ||
  c = 'i' || c = 'n' || c = 'f'

/-- Syntactic validity of a float literal (model of the strings `f64::from_str`
accepts, other than NaN spellings): nonempty, not "NaN", made of float characters,
and starting with a digit, sign, '.' or 'i'. -/
def floatLitOk (s : String) : Bool :=
  match s.data with
  | [] => false
  | c :: _ =>
    (c.isDigit || c = '-' || c = '+' || c = '.' || c = 'i') &&
    s.data.all floatChar && s ≠ "NaN"

/-- Model of `f64::to_string`. -/
def f64_to_string : F64 → String
  | .nan => "NaN"
  | .num s => s

/-- Model of `f64::from_str` on the strings this development meets: "NaN" parses to
NaN; a valid literal parses to the value it canonically names; anything else is a
parse error. -/
def f64_from_str (s : String) : Except Unit F64 :=
  if s = "NaN" then .ok .nan
  else if floatLitOk s then .ok (.num s) else .error ()

/-- IEEE `PartialEq` on the `f64` model: NaN compares unequal to everything,
including itself; other values are equal exactly when they are the same value
(canonical renderings are unique per value). -/
def f64_eq : F64 → F64 → Bool
  | .nan, _ => false
  | .num _, .nan => false
  | .num s, .num t => s = t

/-! ### Primitive codecs (`do_basic_stringifying_woodable_for!` /
`do_basic_destringifying_dewoodable_for!` and the hand-written impls) -/

/-- `Woodable for i64` (via `do_basic_stringifying_woodable_for!`):
`self.to_string().into()`. -/
def i64_woodify (n : Int) : Wood := mkLeaf (i64_to_string n)

/-- `Dewoodable for i64` (via `do_basic_destringifying_dewoodable_for!`):
`from_str` on `initial_str`, wrapping a failure's cause. The message is the
literal string "couldn't parse $name": the macro body writes
`stringify!($name)` while its only bound metavariable is `$Type`, so the
unbound `$name` tokens pass through verbatim into `stringify!`. -/
def i64_dewoodify (v : Wood) : Except DewoodifyError Int :=
  match i64_from_str v.initial_str with
  | .ok n => .ok n
  | .error er =>
    .error (DewoodifyError.new_with_cause v "couldn't parse $name" (some (.intErr er)))

/-- `Woodable for f64` (same stringifying macro). -/
def f64_woodify (f : F64) : Wood := mkLeaf (f64_to_string f)

/-- `Dewoodable for f64` (same destringifying macro, hence the same literal
"couldn't parse $name" message). -/
def f64_dewoodify (v : Wood) : Except DewoodifyError F64 :=
  match f64_from_str v.initial_str with
  | .ok f => .ok f
  | .error _ =>
    .error (DewoodifyError.new_with_cause v "couldn't parse $name" (some .floatErr))

/-- `Woodable for bool` (stringifying macro): `to_string` gives "true"/"false". -/
def bool_woodify (b : Bool) : Wood := mkLeaf (if b then "true" else "false")

/-- `Dewoodable for bool`: matches `initial_str` against the six literals,
otherwise errors with "expected a bool here" and cause `None`. -/
def bool_dewoodify (v : Wood) : Except DewoodifyError Bool :=
  let s := v.initial_str
  if s = "true" ∨ s = "⊤" ∨ s = "yes" then .ok true
  else if s = "false" ∨ s = "⟂" ∨ s = "no" then .ok false
  else .error (DewoodifyError.new_with_cause v "expected a bool here" none)

/-- `Woodable for String`: the text verbatim as a leaf. -/
def string_woodify (s : String) : Wood := mkLeaf s

/-- `Dewoodable for String`: requires a leaf; a branch fails. -/
def string_dewoodify (v : Wood) : Except DewoodifyError String :=
  match v with
  | .leafv a _ _ => .ok a
  | .branchv _ _ _ =>
    .error (DewoodifyError.new_with_cause v "sought string, found branch" none)

/-! ### Field cursor (`FieldScanning`) -/

/-- `FieldScanning`: borrowed view of one list's children plus the rotating
index `eye`. -/
structure FieldScanning where
  v : Wood
  li : List Wood
  eye : Nat

/-- `FieldScanning::new`: the scanned slice is `v.tail()`. -/
def FieldScanning.new (v : Wood) : FieldScanning :=
  ⟨v, v.tail, 0⟩

/-- Stand-in for the value of an out-of-bounds slice index (in Rust such an
access panics; every reachable state of `seek` keeps `eye` in bounds). -/
def oobWood : Wood := .leafv "index out of bounds" 0 0

/-- What `seek` returns at a child whose leading text matched the key: the first
element of the matched child's own tail (`c.tail().next()`), or the no-tail error
positioned at that child. -/
def seekHit (c : Wood) : Except DewoodifyError Wood :=
  match (Wood.tail c).head? with
  | some s => .ok s
  | none => .error (DewoodifyError.new c "expected a subwood, but the wood has no tail")

/-- The loop body of `FieldScanning::seek`, with the `for _ in 0..len` counter
made an explicit fuel argument. Returns the result, the final `eye`, and — as
pure instrumentation that influences nothing — the list of indices examined,
in order. -/
def seekGo (v : Wood) (li : List Wood) (key : String) :
    Nat → Nat → (Except DewoodifyError Wood × Nat × List Nat)
  | eye, 0 =>
    (.error (DewoodifyError.new v ("could not find key \"" ++ key ++ "\"")), eye, [])
  | eye, fuel + 1 =>
    let c := li.getD eye oobWood
    if c.initial_str = key then
      (seekHit c, eye, [eye])
    else
      let eye2 := eye + 1
      let eye3 := if eye2 ≥ li.length then 0 else eye2
      let r := seekGo v li key eye3 fuel
      (r.1, r.2.1, eye :: r.2.2)

/-- `FieldScanning::seek` (the result plus the mutated cursor state). -/
def FieldScanning.seek (s : FieldScanning) (key : String) :
    Except DewoodifyError Wood × Nat × List Nat :=
  seekGo s.v s.li key s.eye s.li.length

/-! ### Sequence combinators -/

/-- `woodify_seq_into`: pushes each encoded element onto `output` in order. -/
def woodify_seq_into {α : Type} (inner : α → Wood) : List α → List Wood → List Wood
  | [], output => output
  | x :: r, output => woodify_seq_into inner r (output ++ [inner x])

/-- `dewoodify_seq_into`: decodes each child in order into `output`; the first
failure is returned at once (the commented-out aggregation path in the source is
dead code). -/
def dewoodify_seq_into {α : Type} (inner : Wood → Except DewoodifyError α) :
    List Wood → List α → Except DewoodifyError (List α)
  | [], output => .ok output
  | w :: r, output =>
    match inner w with
    | .ok x => dewoodify_seq_into inner r (output ++ [x])
    | .error e => .error e

/-- `Wooder for SequenceTran`: encode every element, in order, into a branch. -/
def sequenceTran_woodify {α : Type} (inner : α → Wood) (v : List α) : Wood :=
  mkBranch (woodify_seq_into inner v [])

/-- `Dewooder for SequenceTran`: decode every child of `v`, in order. -/
def sequenceTran_dewoodify {α : Type} (inner : Wood → Except DewoodifyError α)
    (v : Wood) : Except DewoodifyError (List α) :=
  dewoodify_seq_into inner v.contents []

/-! ### Tag checking and tagged sequences -/

/-- `ensure_tag`: demand that the first child is a leaf bearing exactly `tag`;
on success hand back the iterator over the remaining children. -/
def ensure_tag (v : Wood) (tag : String) : Except DewoodifyError (List Wood) :=
  match v.contents with
  | [] =>
    .error (DewoodifyError.new_with_cause v
      ("expected \"" ++ tag ++ "\" at beginning, but the wood was empty") none)
  | name_wood :: rest =>
    match name_wood with
    | .leafv name l c =>
      if name = tag then .ok rest
      else
        .error (DewoodifyError.new_with_cause (.leafv name l c)
          ("expected \"" ++ tag ++ "\" here, but instead there was \"" ++ name ++ "\"") none)
    | .branchv bl l c =>
      .error (DewoodifyError.new_with_cause (.branchv bl l c)
        ("expected \"" ++ tag ++ "\" here, but instead there was a branch wood") none)

/-- `Wooder for TaggedSequenceTran`: push the tag leaf, then the encoded
elements. -/
def taggedSequenceTran_woodify {α : Type} (tag : String) (inner : α → Wood)
    (v : List α) : Wood :=
  mkBranch (woodify_seq_into inner v [mkLeaf tag])

/-- `Dewooder for TaggedSequenceTran`: check the tag, then decode the remaining
children only. -/
def taggedSequenceTran_dewoodify {α : Type} (tag : String)
    (inner : Wood → Except DewoodifyError α) (v : Wood) :
    Except DewoodifyError (List α) :=
  match ensure_tag v tag with
  | .ok it => dewoodify_seq_into inner it []
  | .error e => .error e

/-! ### Pairs -/

/-- `dewoodify_pair`: a branch with exactly two children decodes key then value;
the two `get_unchecked` accesses are modelled by `getD` with the out-of-bounds
stand-in `oobWood` as default. Any other arity, and any leaf, fails as shown. -/
def dewoodify_pair {κ ω : Type} (kt : Wood → Except DewoodifyError κ)
    (vt : Wood → Except DewoodifyError ω) (v : Wood) :
    Except DewoodifyError (κ × ω) :=
  match v with
  | .branchv lc line col =>
    if lc.length = 2 then
      match kt (lc.getD 0 oobWood) with
      | .error e => .error e
      | .ok k =>
        match vt (lc.getD 1 oobWood) with
        | .error e => .error e
        | .ok w => .ok (k, w)
    else
      .error (DewoodifyError.new_with_cause (.branchv lc line col)
        ("expected a pair, two elements, but the branch here has " ++ toString lc.length) none)
  | .leafv s line col =>
    .error (DewoodifyError.new_with_cause (.leafv s line col)
      "expected a pair, but the wood here is an leaf" none)

/-- `Wooder for PairBi`: `branch!(kt, vt)` — a two-child branch, key first. -/
def pairBi_woodify {κ ω : Type} (kt : κ → Wood) (vt : ω → Wood) (v : κ × ω) : Wood :=
  mkBranch [kt v.1, vt v.2]

/-- `Dewooder for PairBi`. -/
def pairBi_dewoodify {κ ω : Type} (kt : Wood → Except DewoodifyError κ)
    (vt : Wood → Except DewoodifyError ω) (v : Wood) :
    Except DewoodifyError (κ × ω) :=
  dewoodify_pair kt vt v

/-- Composition of the two inner decodes of a pair: key first, then value,
failing fast (the body of the length-2 branch of `dewoodify_pair`). -/
def pairDecodeSteps {κ ω : Type} (kt : Wood → Except DewoodifyError κ)
    (vt : Wood → Except DewoodifyError ω) (a b : Wood) :
    Except DewoodifyError (κ × ω) :=
  match kt a with
  | .error e => .error e
  | .ok k =>
    match vt b with
    | .error e => .error e
    | .ok w => .ok (k, w)

/-! ### Maps

`HashMap` is std; its contents are modelled as the association list holding the
map's entries in iteration order. `insert` (hence `from_iter`) replaces the value
at an existing key (keeping the original key, as std documents) and appends a new
key at the end; `get` finds the unique entry with an equal key. -/

/-- std `HashMap::insert` on the association-list model. -/
def hmInsert {κ ω : Type} [DecidableEq κ] :
    List (κ × ω) → κ → ω → List (κ × ω)
  | [], k, w => [(k, w)]
  | (k0, w0) :: rest, k, w =>
    if k0 = k then (k0, w) :: rest else (k0, w0) :: hmInsert rest k w

/-- std `HashMap::from_iter`: insert every pair in order. -/
def hmFromIter {κ ω : Type} [DecidableEq κ] (l : List (κ × ω)) : List (κ × ω) :=
  l.foldl (fun m p => hmInsert m p.1 p.2) []

/-- std `HashMap::get`. -/
def hmGet {κ ω : Type} [DecidableEq κ] (m : List (κ × ω)) (k : κ) : Option ω :=
  (m.find? (fun p => p.1 = k)).map Prod.snd

/-- `woodify_map`: one `branch!(key, value)` per entry, in iteration order. -/
def woodify_map {κ ω : Type} (ktr : κ → Wood) (vtr : ω → Wood) :
    List (κ × ω) → List Wood → List Wood
  | [], o => o
  | (k, w) :: r, o => woodify_map ktr vtr r (o ++ [mkBranch [ktr k, vtr w]])

/-- `dewoodify_map`: decode each child as a pair, in order, failing fast. -/
def dewoodify_map {κ ω : Type} (ktr : Wood → Except DewoodifyError κ)
    (vtr : Wood → Except DewoodifyError ω) :
    List Wood → List (κ × ω) → Except DewoodifyError (List (κ × ω))
  | [], o => .ok o
  | w :: r, o =>
    match dewoodify_pair ktr vtr w with
    | .ok p => dewoodify_map ktr vtr r (o ++ [p])
    | .error e => .error e

/-- `Wooder for HashMapBi` (and `Woodable for HashMap`): encode the entries. -/
def hashMapBi_woodify {κ ω : Type} (ktr : κ → Wood) (vtr : ω → Wood)
    (m : List (κ × ω)) : Wood :=
  mkBranch (woodify_map ktr vtr m [])

/-- `Dewooder for HashMapBi` (and `Dewoodable for HashMap`): decode the pairs,
then `HashMap::from_iter`. -/
def hashMapBi_dewoodify {κ ω : Type} [DecidableEq κ]
    (ktr : Wood → Except DewoodifyError κ) (vtr : Wood → Except DewoodifyError ω)
    (v : Wood) : Except DewoodifyError (List (κ × ω)) :=
  match dewoodify_map ktr vtr v.contents [] with
  | .ok ret => .ok (hmFromIter ret)
  | .error e => .error e

/-- `Dewooder for TaggedHashMapBi`: check the tag, then decode the remaining
children as pairs and build the map. -/
def taggedHashMapBi_dewoodify {κ ω : Type} [DecidableEq κ] (tag : String)
    (ktr : Wood → Except DewoodifyError κ) (vtr : Wood → Except DewoodifyError ω)
    (v : Wood) : Except DewoodifyError (List (κ × ω)) :=
  match ensure_tag v tag with
  | .ok it =>
    match dewoodify_map ktr vtr it [] with
    | .ok ret => .ok (hmFromIter ret)
    | .error e => .error e
  | .error e => .error e

/-! ### The universe of self-describing value types

The round-trip law quantifies over every value built from the supported
primitives and composites. `Ty` names such a type; `TVal` maps it to its Lean
counterpart. `woodify`/`dewoodify` below compose exactly the canonical
(`Woodable`/`Dewoodable`) codecs that `DefaultBiwooder` forwards to — `Vec` and
`HashMap` recurse through `DefaultBiwooder`/`DefaultDewooder` in the source; for
2-element pairs, which have no `Woodable` impl, the strategy is
`PairBi(DefaultBiwooder, DefaultBiwooder)`. `i64` stands in for every integer
width (the macros instantiate identical code). -/
inductive Ty where
  | tInt
  | tFloat
  | tBool
  | tStr
  | tSeq (t : Ty)
  | tPair (a b : Ty)
  | tMap (k w : Ty)

/-- The Lean type of values of a supported type. -/
@[reducible]
def TVal : Ty → Type
  | .tInt => Int
  | .tFloat => F64
  | .tBool => Bool
  | .tStr => String
  | .tSeq t => List (TVal t)
  | .tPair a b => TVal a × TVal b
  | .tMap k w => List (TVal k × TVal w)

/-- Decidable structural equality on each supported type (the model of the Rust
`Eq` bound map keys carry). -/
def tvalDecEq : (t : Ty) → DecidableEq (TVal t)
  | .tInt => inferInstanceAs (DecidableEq Int)
  | .tFloat => inferInstanceAs (DecidableEq F64)
  | .tBool => inferInstanceAs (DecidableEq Bool)
  | .tStr => inferInstanceAs (DecidableEq String)
  | .tSeq t => @instDecidableEqList _ (tvalDecEq t)
  | .tPair a b => @instDecidableEqProd _ _ (tvalDecEq a) (tvalDecEq b)
  | .tMap k w => @instDecidableEqList _ (@instDecidableEqProd _ _ (tvalDecEq k) (tvalDecEq w))

/-- The default-strategy encoder: exactly the canonical `woodify` of each type. -/
def woodify : (t : Ty) → TVal t → Wood
  | .tInt => i64_woodify
  | .tFloat => f64_woodify
  | .tBool => bool_woodify
  | .tStr => string_woodify
  | .tSeq t => fun l => sequenceTran_woodify (woodify t) l
  | .tPair a b => fun p => pairBi_woodify (woodify a) (woodify b) p
  | .tMap tk tw => fun m => hashMapBi_woodify (woodify tk) (woodify tw) m

/-- The default-strategy decoder: exactly the canonical `dewoodify` of each type. -/
def dewoodify : (t : Ty) → Wood → Except DewoodifyError (TVal t)
  | .tInt => i64_dewoodify
  | .tFloat => f64_dewoodify
  | .tBool => bool_dewoodify
  | .tStr => string_dewoodify
  | .tSeq t => fun w => sequenceTran_dewoodify (dewoodify t) w
  | .tPair a b => fun w => dewoodify_pair (dewoodify a) (dewoodify b) w
  | .tMap tk tw => fun w =>
    @hashMapBi_dewoodify _ _ (tvalDecEq tk) (dewoodify tk) (dewoodify tw) w

/-- Key uniqueness of an association list (every real `HashMap` satisfies it). -/
def keysNodup {κ ω : Type} [DecidableEq κ] : List (κ × ω) → Bool
  | [] => true
  | p :: r => (r.all fun q => !(decide (q.1 = p.1))) && keysNodup r

/-- Well-formedness of a model value as the image of a real Rust value: `i64`s
lie in range, floats carry a genuine literal as their canonical rendering, and
map entries have pairwise distinct keys. -/
def wf : (t : Ty) → TVal t → Bool
  | .tInt => fun n => decide (-(2 ^ 63) ≤ n) && decide (n < 2 ^ 63)
  | .tFloat => fun f => match f with | .nan => true | .num s => floatLitOk s
  | .tBool => fun _ => true
  | .tStr => fun _ => true
  | .tSeq t => fun l => l.all (wf t)
  | .tPair a b => fun p => wf a p.1 && wf b p.2
  | .tMap tk tw => fun m =>
    (m.all fun p => wf tk p.1 && wf tw p.2) && @keysNodup _ _ (tvalDecEq tk) m

/-- No NaN float occurs anywhere in the value. -/
def noNaN : (t : Ty) → TVal t → Bool
  | .tInt => fun _ => true
  | .tFloat => fun f => match f with | .nan => false | .num _ => true
  | .tBool => fun _ => true
  | .tStr => fun _ => true
  | .tSeq t => fun l => l.all (noNaN t)
  | .tPair a b => fun p => noNaN a p.1 && noNaN b p.2
  | .tMap tk tw => fun m => m.all fun p => noNaN tk p.1 && noNaN tw p.2

/-- Elementwise list comparison. -/
def listEqWith {α : Type} (f : α → α → Bool) : List α → List α → Bool
  | [], [] => true
  | x :: xs, y :: ys => f x y && listEqWith f xs ys
  | _, _ => false

/-- Rust `==` (`PartialEq`) on each supported type: structural, except that NaN
floats compare unequal to everything including themselves, and maps compare by
size and key lookup. -/
def tvalEq : (t : Ty) → TVal t → TVal t → Bool
  | .tInt => fun a b => decide (a = b)
  | .tFloat => f64_eq
  | .tBool => fun a b => a = b
  | .tStr => fun a b => decide (a = b)
  | .tSeq t => listEqWith (tvalEq t)
  | .tPair a b => fun p q => tvalEq a p.1 q.1 && tvalEq b p.2 q.2
  | .tMap tk tw => fun m1 m2 =>
    decide (m1.length = m2.length) &&
    m1.all fun p =>
      match @hmGet _ _ (tvalDecEq tk) m2 p.1 with
      | some w => tvalEq tw p.2 w
      | none => false

example : Wood.initial_str (.branchv [.branchv [.leafv "a" 0 0] 0 0, .leafv "b" 0 0] 0 0) = "a" := rfl
example : Wood.tail (.leafv "x" 0 0) = [] := rfl
example : dewoodify .tInt (woodify .tInt 90) = .ok 90 := rfl
example : dewoodify .tInt (woodify .tInt (-17)) = .ok (-17) := rfl
example : dewoodify (.tSeq .tStr) (woodify (.tSeq .tStr) ["a", "b"]) = .ok ["a", "b"] := rfl
example : dewoodify (.tMap .tStr .tInt) (woodify (.tMap .tStr .tInt) [("a", 1), ("b", 2)]) =
    .ok [("a", 1), ("b", 2)] := rfl

/-! ### Lemmas: decimal formatting round-trips through decimal parsing -/

theorem digitsRev_lt (fuel m : Nat) : ∀ d ∈ digitsRev fuel m, d < 10 := by
  induction fuel generalizing m with
  | zero => intro d hd; simp [digitsRev] at hd
  | succ fuel ih =>
    intro d hd
    by_cases hm : m = 0
    · simp [digitsRev, hm] at hd
    · simp [digitsRev, hm] at hd
      rcases hd with h | h
      · omega
      · exact ih _ d h

theorem digitsRev_ne_nil (fuel m : Nat) (hm : m ≠ 0) (hf : fuel ≠ 0) :
    digitsRev fuel m ≠ [] := by
  cases fuel with
  | zero => exact absurd rfl hf
  | succ fuel => simp [digitsRev, hm]

theorem digitsRev_foldl (fuel : Nat) :
    ∀ m, m ≤ fuel → ∀ acc,
      ((digitsRev fuel m).reverse).foldl (fun a d => a * 10 + d) acc =
        acc * 10 ^ (digitsRev fuel m).length + m := by
  induction fuel with
  | zero =>
    intro m hm acc
    have : m = 0 := Nat.le_zero.mp hm
    simp [digitsRev, this]
  | succ fuel ih =>
    intro m hm acc
    by_cases hm0 : m = 0
    · simp [digitsRev, hm0]
    · have hstep : m / 10 ≤ fuel := by
        have := Nat.div_lt_self (Nat.pos_of_ne_zero hm0) (by omega : 1 < 10)
        omega
      have hdm := Nat.div_add_mod m 10
      simp only [digitsRev, hm0, if_false, List.reverse_cons, List.foldl_append,
        List.foldl_cons, List.foldl_nil, List.length_cons]
      rw [ih (m / 10) hstep acc]
      ring_nf
      omega

theorem digitChar_props :
    ∀ d, d < 10 → (Nat.digitChar d).isDigit = true ∧ (Nat.digitChar d).toNat - 48 = d ∧
      Nat.digitChar d ≠ '-' ∧ Nat.digitChar d ≠ '+' := by decide

theorem parseDigits_map (ds : List Nat) (h : ∀ d ∈ ds, d < 10) :
    ∀ acc, parseDigits (ds.map Nat.digitChar) acc =
      some (ds.foldl (fun a d => a * 10 + d) acc) := by
  induction ds with
  | nil => intro acc; rfl
  | cons d r ih =>
    intro acc
    have hd := digitChar_props d (h d (by simp))
    simp only [List.map_cons, parseDigits, hd.1, if_true, hd.2.1, List.foldl_cons]
    exact ih (fun x hx => h x (by simp [hx])) _

theorem parse_natToChars (m : Nat) : parseDigits (natToChars m) 0 = some m := by
  by_cases hm : m = 0
  · subst hm; decide
  · have hlt : ∀ d ∈ (digitsRev m m).reverse, d < 10 := by
      intro d hd
      exact digitsRev_lt m m d (List.mem_reverse.mp hd)
    simp only [natToChars, hm, if_false]
    rw [parseDigits_map _ hlt 0, digitsRev_foldl m m (Nat.le_refl m) 0]
    simp

theorem natToChars_ne_nil (m : Nat) : natToChars m ≠ [] := by
  by_cases hm : m = 0
  · simp [natToChars, hm]
  · simp only [natToChars, hm, if_false]
    intro h
    have := digitsRev_ne_nil m m hm hm
    simp at h
    exact this h

theorem natToChars_no_sign (m : Nat) : ∀ ch ∈ natToChars m, ch ≠ '-' ∧ ch ≠ '+' := by
  by_cases hm : m = 0
  · intro ch hch; simp [natToChars, hm] at hch; subst hch; decide
  · intro ch hch
    simp only [natToChars, hm, if_false, List.mem_map, List.mem_reverse] at hch
    obtain ⟨d, hd, hdc⟩ := hch
    have := digitChar_props d (digitsRev_lt m m d hd)
    subst hdc
    exact ⟨this.2.2.1, this.2.2.2⟩

theorem data_natToString (m : Nat) : (natToString m).data = natToChars m := rfl

theorem data_neg_natToString (m : Nat) :
    ("-" ++ natToString m).data = '-' :: natToChars m := rfl

theorem i64_of_digits_natToChars_pos (m : Nat) (hmb : m ≤ 2 ^ 63 - 1) :
    i64_of_digits false (natToChars m) = .ok (m : Int) := by
  obtain ⟨c, cs, hcs⟩ : ∃ c cs, natToChars m = c :: cs := by
    rcases hl : natToChars m with _ | ⟨c, cs⟩
    · exact absurd hl (natToChars_ne_nil _)
    · exact ⟨c, cs, rfl⟩
  have hparse : parseDigits (c :: cs) 0 = some m := by
    rw [← hcs]; exact parse_natToChars _
  rw [hcs]
  simp only [i64_of_digits, hparse]
  have hmb2 : m ≤ 9223372036854775807 := by omega
  simp [hmb2]

theorem i64_of_digits_natToChars_neg (m : Nat) (hmb : m ≤ 2 ^ 63) :
    i64_of_digits true (natToChars m) = .ok (-(m : Int)) := by
  obtain ⟨c, cs, hcs⟩ : ∃ c cs, natToChars m = c :: cs := by
    rcases hl : natToChars m with _ | ⟨c, cs⟩
    · exact absurd hl (natToChars_ne_nil _)
    · exact ⟨c, cs, rfl⟩
  have hparse : parseDigits (c :: cs) 0 = some m := by
    rw [← hcs]; exact parse_natToChars _
  rw [hcs]
  simp only [i64_of_digits, hparse]
  have hmb2 : m ≤ 9223372036854775808 := by omega
  simp [hmb2]

theorem i64_from_str_to_string (n : Int) (h1 : -(2 ^ 63) ≤ n) (h2 : n < 2 ^ 63) :
    i64_from_str (i64_to_string n) = .ok n := by
  by_cases hneg : n < 0
  · have hm : ((-n).toNat : Int) = -n := Int.toNat_of_nonneg (by omega)
    have hmb : (-n).toNat ≤ 2 ^ 63 := by omega
    simp only [i64_to_string, hneg, if_true]
    simp only [i64_from_str, data_neg_natToString]
    simp only [if_true]
    rw [i64_of_digits_natToChars_neg _ hmb, hm]
    simp
  · have h0 : 0 ≤ n := by omega
    have hm : (n.toNat : Int) = n := Int.toNat_of_nonneg h0
    have hmb : n.toNat ≤ 2 ^ 63 - 1 := by omega
    simp only [i64_to_string, hneg, if_false]
    obtain ⟨c, cs, hcs⟩ : ∃ c cs, natToChars n.toNat = c :: cs := by
      rcases hl : natToChars n.toNat with _ | ⟨c, cs⟩
      · exact absurd hl (natToChars_ne_nil _)
      · exact ⟨c, cs, rfl⟩
    have hsign := natToChars_no_sign n.toNat c (by rw [hcs]; simp)
    simp only [i64_from_str, data_natToString, hcs]
    rw [if_neg hsign.1, if_neg hsign.2, ← hcs, i64_of_digits_natToChars_pos _ hmb, hm]

theorem i64_roundtrip (n : Int) (h1 : -(2 ^ 63) ≤ n) (h2 : n < 2 ^ 63) :
    i64_dewoodify (i64_woodify n) = .ok n := by
  have : (i64_woodify n).initial_str = i64_to_string n := rfl
  simp only [i64_dewoodify, this, i64_from_str_to_string n h1 h2]

/-! ### Lemmas: sequence combinators -/

theorem woodify_seq_into_eq {α : Type} (inner : α → Wood) :
    ∀ (l : List α) (out : List Wood), woodify_seq_into inner l out = out ++ l.map inner := by
  intro l
  induction l with
  | nil => intro out; simp [woodify_seq_into]
  | cons x r ih => intro out; simp [woodify_seq_into, ih]

theorem dewoodify_seq_into_acc {α : Type} (inner : Wood → Except DewoodifyError α) :
    ∀ (ws : List Wood) (out : List α),
      dewoodify_seq_into inner ws out =
        (dewoodify_seq_into inner ws []).map (fun l => out ++ l) := by
  intro ws
  induction ws with
  | nil => intro out; simp [dewoodify_seq_into, Except.map]
  | cons w r ih =>
    intro out
    simp only [dewoodify_seq_into]
    cases hw : inner w with
    | error e => rfl
    | ok x =>
      dsimp only
      rw [ih (out ++ [x]), ih ([] ++ [x])]
      cases dewoodify_seq_into inner r [] <;> simp [Except.map]

theorem dewoodify_seq_into_all_ok {α : Type} (inner : Wood → Except DewoodifyError α) :
    ∀ ws : List Wood, (∀ w ∈ ws, ∃ x, inner w = .ok x) →
      ∃ xs, dewoodify_seq_into inner ws [] = .ok xs ∧ xs.length = ws.length ∧
        ∀ i, i < ws.length → ∃ y, xs.get? i = some y ∧ inner (ws.getD i oobWood) = .ok y := by
  intro ws
  induction ws with
  | nil =>
    intro _
    exact ⟨[], rfl, rfl, fun i hi => absurd hi (by simp)⟩
  | cons w r ih =>
    intro h
    obtain ⟨x, hx⟩ := h w (by simp)
    obtain ⟨xs, hxs, hlen, hel⟩ := ih (fun w2 hw2 => h w2 (by simp [hw2]))
    refine ⟨x :: xs, ?_, by simp [hlen], ?_⟩
    · simp only [dewoodify_seq_into, hx]
      rw [dewoodify_seq_into_acc inner r ([] ++ [x]), hxs]
      rfl
    · intro i hi
      cases i with
      | zero => exact ⟨x, rfl, by simpa using hx⟩
      | succ i =>
        simp only [List.length_cons] at hi
        obtain ⟨y, h1, h2⟩ := hel i (by omega)
        exact ⟨y, by simpa using h1, by simpa using h2⟩

theorem dewoodify_seq_into_fail {α : Type} (inner : Wood → Except DewoodifyError α) :
    ∀ (pre : List Wood) (w : Wood) (post : List Wood) (e : DewoodifyError),
      (∀ p ∈ pre, ∃ x, inner p = .ok x) → inner w = .error e →
      dewoodify_seq_into inner (pre ++ w :: post) [] = .error e := by
  intro pre
  induction pre with
  | nil =>
    intro w post e _ hw
    simp [dewoodify_seq_into, hw]
  | cons p r ih =>
    intro w post e hpre hw
    obtain ⟨x, hx⟩ := hpre p (by simp)
    simp only [List.cons_append, dewoodify_seq_into, hx]
    rw [dewoodify_seq_into_acc]
    simp only [List.append_eq]
    rw [ih w post e (fun q hq => hpre q (by simp [hq])) hw]
    rfl

/-! ### Lemmas: pair combinator -/

theorem dewoodify_pair_two {κ ω : Type} (kt : Wood → Except DewoodifyError κ)
    (vt : Wood → Except DewoodifyError ω) (a b : Wood) (l c : Int) :
    dewoodify_pair kt vt (.branchv [a, b] l c) =
      match kt a with
      | .error e => .error e
      | .ok k =>
        match vt b with
        | .error e => .error e
        | .ok w => .ok (k, w) := rfl

theorem dewoodify_pair_mkBranch {κ ω : Type} (kt : Wood → Except DewoodifyError κ)
    (vt : Wood → Except DewoodifyError ω) (a b : Wood) :
    dewoodify_pair kt vt (mkBranch [a, b]) =
      match kt a with
      | .error e => .error e
      | .ok k =>
        match vt b with
        | .error e => .error e
        | .ok w => .ok (k, w) := rfl

/-! ### Lemmas: map model and map combinator -/

theorem woodify_map_eq {κ ω : Type} (ktr : κ → Wood) (vtr : ω → Wood) :
    ∀ (l : List (κ × ω)) (out : List Wood),
      woodify_map ktr vtr l out = out ++ l.map (fun p => mkBranch [ktr p.1, vtr p.2]) := by
  intro l
  induction l with
  | nil => intro out; simp [woodify_map]
  | cons p r ih =>
    intro out
    obtain ⟨pk, pw⟩ := p
    simp [woodify_map, ih]

theorem dewoodify_map_acc {κ ω : Type} (kt : Wood → Except DewoodifyError κ)
    (vt : Wood → Except DewoodifyError ω) :
    ∀ (ws : List Wood) (out : List (κ × ω)),
      dewoodify_map kt vt ws out =
        (dewoodify_map kt vt ws []).map (fun l => out ++ l) := by
  intro ws
  induction ws with
  | nil => intro out; simp [dewoodify_map, Except.map]
  | cons w r ih =>
    intro out
    simp only [dewoodify_map]
    cases hw : dewoodify_pair kt vt w with
    | error e => rfl
    | ok p =>
      dsimp only
      rw [ih (out ++ [p]), ih ([] ++ [p])]
      cases dewoodify_map kt vt r [] <;> simp [Except.map]

theorem dewoodify_map_all_ok {κ ω : Type} (kt : Wood → Except DewoodifyError κ)
    (vt : Wood → Except DewoodifyError ω) (ke : κ → Wood) (ve : ω → Wood) :
    ∀ entries : List (κ × ω),
      (∀ p ∈ entries, kt (ke p.1) = .ok p.1 ∧ vt (ve p.2) = .ok p.2) →
      dewoodify_map kt vt (entries.map (fun p => mkBranch [ke p.1, ve p.2])) [] =
        .ok entries := by
  intro entries
  induction entries with
  | nil => intro _; rfl
  | cons p r ih =>
    intro h
    obtain ⟨hk, hv⟩ := h p (by simp)
    obtain ⟨pk, pw⟩ := p
    simp only [List.map_cons, dewoodify_map, dewoodify_pair_mkBranch, hk, hv]
    rw [dewoodify_map_acc, ih (fun q hq => h q (by simp [hq]))]
    rfl

theorem hmInsert_fresh {κ ω : Type} [DecidableEq κ] :
    ∀ (m : List (κ × ω)) (k : κ) (w : ω), (∀ q ∈ m, ¬(q.1 = k)) →
      hmInsert m k w = m ++ [(k, w)] := by
  intro m
  induction m with
  | nil => intro k w _; rfl
  | cons q r ih =>
    intro k w h
    obtain ⟨qk, qw⟩ := q
    have hne : ¬(qk = k) := by simpa using h (qk, qw) (by simp)
    simp only [hmInsert, if_neg hne, List.cons_append, List.cons.injEq, true_and]
    exact ih k w (fun q2 hq2 => h q2 (by simp [hq2]))

theorem keysNodup_append_forall {κ ω : Type} [DecidableEq κ] :
    ∀ xs ys : List (κ × ω), keysNodup (xs ++ ys) = true →
      ∀ x ∈ xs, ∀ y ∈ ys, ¬(y.1 = x.1) := by
  intro xs
  induction xs with
  | nil => intro ys _ x hx; exact absurd hx (by simp)
  | cons a r ih =>
    intro ys h x hx y hy
    obtain ⟨ak, aw⟩ := a
    simp only [List.cons_append, keysNodup, Bool.and_eq_true, List.all_eq_true] at h
    rcases List.mem_cons.mp hx with rfl | hx2
    · have := h.1 y (by simp [hy])
      simpa using this
    · exact ih ys h.2 x hx2 y hy

theorem hmFromIter_acc {κ ω : Type} [DecidableEq κ] :
    ∀ (l acc : List (κ × ω)), keysNodup (acc ++ l) = true →
      List.foldl (fun m p => hmInsert m p.1 p.2) acc l = acc ++ l := by
  intro l
  induction l with
  | nil => intro acc _; simp
  | cons p r ih =>
    intro acc h
    have hfresh : ∀ q ∈ acc, ¬(q.1 = p.1) := fun q hq hqe =>
      keysNodup_append_forall acc (p :: r) h q hq p (by simp) hqe.symm
    simp only [List.foldl_cons]
    rw [hmInsert_fresh acc p.1 p.2 hfresh]
    have h2 : keysNodup ((acc ++ [(p.1, p.2)]) ++ r) = true := by
      simpa using h
    rw [ih (acc ++ [(p.1, p.2)]) h2]
    simp

theorem hmFromIter_nodup {κ ω : Type} [DecidableEq κ] (l : List (κ × ω))
    (h : keysNodup l = true) : hmFromIter l = l := by
  have := hmFromIter_acc l [] (by simpa using h)
  simpa [hmFromIter] using this

theorem floatLitOk_ne_nan (s : String) (h : floatLitOk s = true) : s ≠ "NaN" := by
  unfold floatLitOk at h
  rcases hd : s.data with _ | ⟨c, cs⟩ <;> rw [hd] at h
  · simp at h
  · simp only [Bool.and_eq_true, decide_eq_true_eq] at h
    exact h.2

theorem dewoodify_seq_into_map_ok {α : Type} (dec : Wood → Except DewoodifyError α)
    (enc : α → Wood) :
    ∀ l : List α, (∀ x ∈ l, dec (enc x) = .ok x) →
      dewoodify_seq_into dec (l.map enc) [] = .ok l := by
  intro l
  induction l with
  | nil => intro _; rfl
  | cons x r ih =>
    intro h
    simp only [List.map_cons, dewoodify_seq_into, h x (by simp)]
    rw [dewoodify_seq_into_acc, ih (fun y hy => h y (by simp [hy]))]
    rfl

theorem listEqWith_refl {α : Type} (f : α → α → Bool) :
    ∀ l : List α, (∀ x ∈ l, f x x = true) → listEqWith f l l = true := by
  intro l
  induction l with
  | nil => intro _; rfl
  | cons x r ih =>
    intro h
    simp [listEqWith, h x (by simp), ih (fun y hy => h y (by simp [hy]))]

theorem hmGet_mem_nodup {κ ω : Type} [DecidableEq κ] :
    ∀ m : List (κ × ω), keysNodup m = true → ∀ p ∈ m, hmGet m p.1 = some p.2 := by
  intro m
  induction m with
  | nil => intro _ p hp; exact absurd hp (by simp)
  | cons q r ih =>
    intro h p hp
    obtain ⟨qk, qw⟩ := q
    simp only [keysNodup, Bool.and_eq_true, List.all_eq_true] at h
    rcases List.mem_cons.mp hp with rfl | hp2
    · simp [hmGet]
    · have hne : ¬(p.1 = qk) := by simpa using h.1 p hp2
      have hne2 : ¬(qk = p.1) := fun hh => hne hh.symm
      simp only [hmGet, List.find?]
      rw [decide_eq_false hne2]
      exact ih h.2 p hp2

theorem hmGet_hmInsert {κ ω : Type} [DecidableEq κ] :
    ∀ (m : List (κ × ω)) (k : κ) (w : ω) (k2 : κ),
      hmGet (hmInsert m k w) k2 = if k = k2 then some w else hmGet m k2 := by
  intro m
  induction m with
  | nil =>
    intro k w k2
    by_cases h : k = k2
    · subst h; simp [hmInsert, hmGet, List.find?]
    · simp [hmInsert, hmGet, List.find?, h]
  | cons q r ih =>
    intro k w k2
    obtain ⟨qk, qw⟩ := q
    by_cases hq : qk = k
    · subst hq
      by_cases h2 : qk = k2
      · subst h2
        simp [hmInsert, hmGet, List.find?]
      · simp [hmInsert, hmGet, List.find?, h2]
    · by_cases h2 : qk = k2
      · subst h2
        have hk2 : ¬(k = qk) := fun hh => hq hh.symm
        simp [hmInsert, hmGet, List.find?, hq, hk2]
      · simp only [hmInsert, if_neg hq]
        simp only [hmGet, List.find?, decide_eq_false h2]
        exact ih k w k2

theorem hmGet_hmFromIter {κ ω : Type} [DecidableEq κ] (ps : List (κ × ω)) (k : κ) :
    hmGet (hmFromIter ps) k =
      (ps.reverse.find? (fun p => p.1 = k)).map Prod.snd := by
  induction ps using List.reverseRecOn with
  | nil => rfl
  | append_singleton l x ih =>
    obtain ⟨xk, xw⟩ := x
    simp only [hmFromIter, List.foldl_append, List.foldl_cons, List.foldl_nil]
    rw [hmGet_hmInsert]
    simp only [hmFromIter] at ih
    rw [List.reverse_append]
    simp only [List.reverse_cons, List.reverse_nil, List.nil_append, List.singleton_append,
      List.find?]
    by_cases h : xk = k
    · simp [h]
    · simp only [decide_eq_false h]
      rw [if_neg h, ih]
      simp

theorem filter_getLast_eq_reverse_find {α : Type} (f : α → Bool) :
    ∀ l : List α, (l.filter f).getLast? = l.reverse.find? f := by
  intro l
  induction l using List.reverseRecOn with
  | nil => rfl
  | append_singleton l x ih =>
    rw [List.filter_append, List.reverse_append]
    simp only [List.reverse_cons, List.reverse_nil, List.nil_append, List.singleton_append,
      List.find?]
    by_cases h : f x
    · simp only [List.filter_cons, h, if_true, List.filter_nil]
      rw [List.getLast?_concat]
    · simp only [List.filter_cons, h, List.filter_nil]
      simp [ih]

/-! ### Lemmas: the field cursor's scan loop -/

theorem getD_of_lt {α : Type} (l : List α) (d : α) (n : Nat) (h : n < l.length) :
    l.getD n d = l.get ⟨n, h⟩ := by
  rw [List.getD_eq_get?, List.get?_eq_get h]
  rfl

theorem getD_mem_of_lt {α : Type} (l : List α) (d : α) (n : Nat) (h : n < l.length) :
    l.getD n d ∈ l := by
  rw [getD_of_lt l d n h]
  exact List.get_mem l n h

theorem wrap_eq_mod (len eye : Nat) (heye : eye < len) :
    (if eye + 1 ≥ len then 0 else eye + 1) = (eye + 1) % len := by
  by_cases hwrap : eye + 1 ≥ len
  · have h1 : eye + 1 = len := by omega
    simp [hwrap, h1]
  · have h1 : eye + 1 < len := by omega
    simp [hwrap, Nat.mod_eq_of_lt h1]

theorem trace_shift (len eye fuel : Nat) (heye : eye < len) :
    eye :: (List.range fuel).map (fun i => ((eye + 1) % len + i) % len) =
      (List.range (fuel + 1)).map (fun i => (eye + i) % len) := by
  rw [List.range_succ_eq_map, List.map_cons, List.map_map]
  congr 1
  · rw [Nat.add_zero, Nat.mod_eq_of_lt heye]
  · apply List.map_congr_left
    intro i _
    simp only [Function.comp_apply]
    rw [Nat.mod_add_mod]
    congr 1
    omega

theorem seekGo_nomatch (v : Wood) (li : List Wood) (key : String)
    (hno : ∀ c ∈ li, c.initial_str ≠ key) :
    ∀ (fuel eye : Nat), eye < li.length →
      seekGo v li key eye fuel =
        (.error (DewoodifyError.new v ("could not find key \"" ++ key ++ "\"")),
         (eye + fuel) % li.length,
         (List.range fuel).map (fun i => (eye + i) % li.length)) := by
  intro fuel
  induction fuel with
  | zero =>
    intro eye heye
    simp [seekGo, Nat.mod_eq_of_lt heye]
  | succ fuel ih =>
    intro eye heye
    have hm : ¬((li.getD eye oobWood).initial_str = key) :=
      hno (li.getD eye oobWood) (getD_mem_of_lt li oobWood eye heye)
    have hlen : 0 < li.length := by omega
    have h2 : ((eye + 1) % li.length + fuel) % li.length =
        (eye + (fuel + 1)) % li.length := by
      rw [Nat.mod_add_mod]
      congr 1
      omega
    simp only [seekGo, if_neg hm]
    rw [wrap_eq_mod li.length eye heye,
      ih ((eye + 1) % li.length) (Nat.mod_lt _ hlen)]
    dsimp only
    rw [h2, trace_shift li.length eye fuel heye]

theorem seekGo_match (v : Wood) (li : List Wood) (key : String) :
    ∀ (fuel eye : Nat), eye < li.length →
      (∃ i, i < fuel ∧ (li.getD ((eye + i) % li.length) oobWood).initial_str = key) →
      ∃ j, j < li.length ∧ (li.getD j oobWood).initial_str = key ∧
        (seekGo v li key eye fuel).1 = seekHit (li.getD j oobWood) ∧
        (seekGo v li key eye fuel).2.1 = j := by
  intro fuel
  induction fuel with
  | zero =>
    intro eye _ hex
    obtain ⟨i, hi, _⟩ := hex
    omega
  | succ fuel ih =>
    intro eye heye hex
    have hlen : 0 < li.length := by omega
    by_cases hm : (li.getD eye oobWood).initial_str = key
    · refine ⟨eye, heye, hm, ?_, ?_⟩
      · simp only [seekGo, if_pos hm]
      · simp only [seekGo, if_pos hm]
    · obtain ⟨i, hifuel, hikey⟩ := hex
      have hi0 : i ≠ 0 := by
        intro h0
        rw [h0, Nat.add_zero, Nat.mod_eq_of_lt heye] at hikey
        exact hm hikey
      obtain ⟨i2, rfl⟩ : ∃ i2, i = i2 + 1 := ⟨i - 1, by omega⟩
      have hex2 : ∃ i3, i3 < fuel ∧
          (li.getD (((eye + 1) % li.length + i3) % li.length) oobWood).initial_str = key := by
        refine ⟨i2, by omega, ?_⟩
        rw [Nat.mod_add_mod]
        have harith : eye + 1 + i2 = eye + (i2 + 1) := by omega
        rw [harith]
        exact hikey
      obtain ⟨j, hj1, hj2, hj3, hj4⟩ := ih ((eye + 1) % li.length) (Nat.mod_lt _ hlen) hex2
      refine ⟨j, hj1, hj2, ?_, ?_⟩
      · simp only [seekGo, if_neg hm]
        rw [wrap_eq_mod li.length eye heye]
        exact hj3
      · simp only [seekGo, if_neg hm]
        rw [wrap_eq_mod li.length eye heye]
        exact hj4

theorem scan_index_roundtrip (len eye j : Nat) (heye : eye < len) (hj : j < len) :
    (eye + (j + len - eye) % len) % len = j := by
  rw [Nat.add_mod_mod]
  have h1 : eye + (j + len - eye) = j + len := by omega
  rw [h1, Nat.add_mod_right, Nat.mod_eq_of_lt hj]

/-! ### Claim theorems -/

/-- C1 (amended): for every value built from the supported primitives (ints,
floats, booleans, text) and composites (sequences, pairs, maps) that contains no
NaN float, decoding the tree produced by encoding it with the same default
strategy yields exactly the original value, and that value is equal to itself
under Rust `==` — the round-trip law. (The unamended claim fails at NaN, see the
counterexample.) -/
theorem c1_roundtrip_amended :
    ∀ (t : Ty) (v : TVal t), wf t v = true → noNaN t v = true →
      dewoodify t (woodify t v) = .ok v ∧ tvalEq t v v = true := by
  intro t
  induction t with
  | tInt =>
    intro v hwf _
    simp only [wf, Bool.and_eq_true, decide_eq_true_eq] at hwf
    exact ⟨i64_roundtrip v hwf.1 hwf.2, by simp [tvalEq]⟩
  | tFloat =>
    intro v hwf hnan
    cases v with
    | nan => simp [noNaN] at hnan
    | num s =>
      simp only [wf] at hwf
      have hne : s ≠ "NaN" := floatLitOk_ne_nan s hwf
      constructor
      · show f64_dewoodify (mkLeaf s) = .ok (.num s)
        have h1 : (mkLeaf s).initial_str = s := rfl
        simp only [f64_dewoodify, h1, f64_from_str, if_neg hne, if_pos hwf]
      · show f64_eq (.num s) (.num s) = true
        simp [f64_eq]
  | tBool =>
    intro v _ _
    cases v <;> exact ⟨rfl, rfl⟩
  | tStr =>
    intro v _ _
    exact ⟨rfl, by simp [tvalEq]⟩
  | tSeq t iht =>
    intro v hwf hnan
    simp only [wf, List.all_eq_true] at hwf
    simp only [noNaN, List.all_eq_true] at hnan
    have hel : ∀ x ∈ v, dewoodify t (woodify t x) = .ok x ∧ tvalEq t x x = true :=
      fun x hx => iht x (hwf x hx) (hnan x hx)
    constructor
    · show sequenceTran_dewoodify (dewoodify t) (sequenceTran_woodify (woodify t) v) = .ok v
      unfold sequenceTran_woodify sequenceTran_dewoodify
      rw [woodify_seq_into_eq]
      have hc : (mkBranch ([] ++ v.map (woodify t))).contents = v.map (woodify t) := rfl
      rw [hc]
      exact dewoodify_seq_into_map_ok _ _ v (fun x hx => (hel x hx).1)
    · show listEqWith (tvalEq t) v v = true
      exact listEqWith_refl _ v (fun x hx => (hel x hx).2)
  | tPair a b iha ihb =>
    intro v hwf hnan
    obtain ⟨va, vb⟩ := v
    simp only [wf, Bool.and_eq_true] at hwf
    simp only [noNaN, Bool.and_eq_true] at hnan
    obtain ⟨ra1, ra2⟩ := iha va hwf.1 hnan.1
    obtain ⟨rb1, rb2⟩ := ihb vb hwf.2 hnan.2
    constructor
    · show dewoodify_pair (dewoodify a) (dewoodify b)
        (pairBi_woodify (woodify a) (woodify b) (va, vb)) = .ok (va, vb)
      have h1 : pairBi_woodify (woodify a) (woodify b) (va, vb) =
          mkBranch [woodify a va, woodify b vb] := rfl
      rw [h1, dewoodify_pair_mkBranch, ra1, rb1]
    · have h2 : tvalEq (.tPair a b) (va, vb) (va, vb) =
          (tvalEq a va va && tvalEq b vb vb) := rfl
      rw [h2, ra2, rb2]
      rfl
  | tMap tk tw ihk ihw =>
    intro v hwf hnan
    simp only [wf, Bool.and_eq_true, List.all_eq_true] at hwf
    simp only [noNaN, List.all_eq_true] at hnan
    have hnodup : @keysNodup _ _ (tvalDecEq tk) v = true := hwf.2
    have hel : ∀ p ∈ v,
        (dewoodify tk (woodify tk p.1) = .ok p.1 ∧ tvalEq tk p.1 p.1 = true) ∧
        (dewoodify tw (woodify tw p.2) = .ok p.2 ∧ tvalEq tw p.2 p.2 = true) := by
      intro p hp
      have h1 := hwf.1 p hp
      have h2 := hnan p hp
      simp only [Bool.and_eq_true] at h1 h2
      exact ⟨ihk p.1 h1.1 h2.1, ihw p.2 h1.2 h2.2⟩
    constructor
    · show @hashMapBi_dewoodify _ _ (tvalDecEq tk) (dewoodify tk) (dewoodify tw)
        (hashMapBi_woodify (woodify tk) (woodify tw) v) = .ok v
      unfold hashMapBi_woodify hashMapBi_dewoodify
      rw [woodify_map_eq]
      have hc : (mkBranch ([] ++ v.map (fun p => mkBranch [woodify tk p.1, woodify tw p.2]))).contents =
          v.map (fun p => mkBranch [woodify tk p.1, woodify tw p.2]) := rfl
      rw [hc, dewoodify_map_all_ok _ _ _ _ v (fun p hp => ⟨(hel p hp).1.1, (hel p hp).2.1⟩)]
      exact congrArg Except.ok (@hmFromIter_nodup _ _ (tvalDecEq tk) v hnodup)
    · have h2 : tvalEq (.tMap tk tw) v v =
          (decide (v.length = v.length) &&
            v.all fun p =>
              match @hmGet _ _ (tvalDecEq tk) v p.1 with
              | some w => tvalEq tw p.2 w
              | none => false) := rfl
      rw [h2]
      simp only [decide_eq_true_eq, Bool.and_eq_true, List.all_eq_true]
      refine ⟨trivial, ?_⟩
      intro p hp
      rw [@hmGet_mem_nodup _ _ (tvalDecEq tk) v hnodup p hp]
      exact (hel p hp).2.2

/-- Witness for C1 (amended) at the concrete value {"a" ↦ [1, -2], "b" ↦ []} of
type map from text to sequences of ints. -/
theorem c1_roundtrip_amended_witness :
    wf (.tMap .tStr (.tSeq .tInt)) [("a", [1, -2]), ("b", [])] = true ∧
    noNaN (.tMap .tStr (.tSeq .tInt)) [("a", [1, -2]), ("b", [])] = true ∧
    (dewoodify (.tMap .tStr (.tSeq .tInt))
        (woodify (.tMap .tStr (.tSeq .tInt)) [("a", [1, -2]), ("b", [])]) =
      .ok [("a", [1, -2]), ("b", [])] ∧
      tvalEq (.tMap .tStr (.tSeq .tInt)) [("a", [1, -2]), ("b", [])]
        [("a", [1, -2]), ("b", [])] = true) :=
  ⟨by decide, by decide,
    c1_roundtrip_amended (.tMap .tStr (.tSeq .tInt)) [("a", [1, -2]), ("b", [])]
      (by decide) (by decide)⟩

/-- C1 counterexample: the claim as stated fails at the float value NaN. Encoding
NaN and decoding the result reproduces NaN, but under Rust `==` (IEEE equality,
which `PartialEq for f64` implements) the decoded value is not equal to the
original — NaN ≠ NaN — so no decode result can be "a value equal to v". -/
theorem c1_nan_counterexample :
    dewoodify .tFloat (woodify .tFloat F64.nan) = .ok F64.nan ∧
      tvalEq .tFloat F64.nan F64.nan = false :=
  ⟨rfl, rfl⟩

/-- C3 (code bug): decoding a leaf whose text does not parse as the numeric
target type wraps the underlying numeric-parse error as the chained cause, but
the message is the literal string "couldn't parse $name" for every numeric type:
the macro body writes `stringify!($name)` while its only bound metavariable is
`$Type`, so the unbound `$name` passes through verbatim and the message never
names the target type. Evaluated at the failing leaf "abc" for i64 and f64. -/
theorem c3_parse_error_message :
    i64_dewoodify (.leafv "abc" 3 7) =
      .error ⟨3, 7, "couldn't parse $name", some (.intErr .invalidDigit)⟩ ∧
    f64_dewoodify (.leafv "abc" 3 7) =
      .error ⟨3, 7, "couldn't parse $name", some .floatErr⟩ :=
  ⟨rfl, rfl⟩

/-- C6: boolean decode on a leaf returns true exactly for the texts "true", "⊤",
"yes" and false exactly for "false", "⟂", "no", by case-sensitive exact match;
every other text fails with "expected a bool here", no cause, positioned at the
leaf. -/
theorem c6_bool_literals (s : String) (l c : Int) :
    (bool_dewoodify (.leafv s l c) = .ok true ↔ (s = "true" ∨ s = "⊤" ∨ s = "yes")) ∧
    (bool_dewoodify (.leafv s l c) = .ok false ↔ (s = "false" ∨ s = "⟂" ∨ s = "no")) ∧
    (¬(s = "true" ∨ s = "⊤" ∨ s = "yes") → ¬(s = "false" ∨ s = "⟂" ∨ s = "no") →
      bool_dewoodify (.leafv s l c) = .error ⟨l, c, "expected a bool here", none⟩) := by
  have hs : (Wood.leafv s l c).initial_str = s := rfl
  by_cases h1 : s = "true" ∨ s = "⊤" ∨ s = "yes"
  · have h2 : ¬(s = "false" ∨ s = "⟂" ∨ s = "no") := by
      rcases h1 with rfl | rfl | rfl <;> simp
    refine ⟨by simp [bool_dewoodify, hs, h1], by simp [bool_dewoodify, hs, h1, h2],
      fun h1c _ => absurd h1 h1c⟩
  · by_cases h2 : s = "false" ∨ s = "⟂" ∨ s = "no"
    · refine ⟨by simp [bool_dewoodify, hs, h1, h2], by simp [bool_dewoodify, hs, h1, h2],
        fun _ h2c => absurd h2 h2c⟩
    · refine ⟨by simp [bool_dewoodify, hs, h1, h2], by simp [bool_dewoodify, hs, h1, h2],
        fun _ _ => ?_⟩
      simp [bool_dewoodify, hs, h1, h2, DewoodifyError.new_with_cause, Wood.line_and_col]

/-- Witness for C6 at the case-variant text "True", which is rejected. -/
theorem c6_bool_literals_witness :
    ¬(("True" : String) = "true" ∨ ("True" : String) = "⊤" ∨ ("True" : String) = "yes") ∧
    bool_dewoodify (.leafv "True" 0 0) = .error ⟨0, 0, "expected a bool here", none⟩ :=
  ⟨by decide, (c6_bool_literals "True" 0 0).2.2 (by decide) (by decide)⟩

/-- C5 (amended): pair decode fails on every leaf with the distinct not-a-pair
message, fails on every branch whose arity is not 2 with an arity message naming
the actual child count, and on a branch with exactly two children runs the key
decoder then the value decoder, succeeding exactly when both inner decodes
succeed; pair encode always produces a 2-child list with the key first. -/
theorem c5_pair_amended {κ ω : Type} (kt : Wood → Except DewoodifyError κ)
    (vt : Wood → Except DewoodifyError ω) :
    (∀ s l c, dewoodify_pair kt vt (.leafv s l c) =
      .error ⟨l, c, "expected a pair, but the wood here is an leaf", none⟩) ∧
    (∀ (lc : List Wood) (l c : Int), lc.length ≠ 2 →
      dewoodify_pair kt vt (.branchv lc l c) =
        .error ⟨l, c, "expected a pair, two elements, but the branch here has " ++
          toString lc.length, none⟩) ∧
    (∀ a b l c,
      dewoodify_pair kt vt (.branchv [a, b] l c) =
        match kt a with
        | .error e => .error e
        | .ok k =>
          match vt b with
          | .error e => .error e
          | .ok w => .ok (k, w)) ∧
    (∀ (ke : κ → Wood) (ve : ω → Wood) (p : κ × ω),
      pairBi_woodify ke ve p = mkBranch [ke p.1, ve p.2]) := by
  refine ⟨fun s l c => rfl, ?_, fun a b l c => dewoodify_pair_two kt vt a b l c,
    fun ke ve p => rfl⟩
  intro lc l c h
  simp [dewoodify_pair, h, DewoodifyError.new_with_cause, Wood.line_and_col]

/-- Witness for C5 (amended) at the empty branch (arity 0). -/
theorem c5_pair_amended_witness :
    ([] : List Wood).length ≠ 2 ∧
    dewoodify_pair string_dewoodify string_dewoodify (.branchv [] 0 0) =
      .error ⟨0, 0, "expected a pair, two elements, but the branch here has 0", none⟩ :=
  ⟨by decide,
    (c5_pair_amended string_dewoodify string_dewoodify).2.1 [] 0 0 (by decide)⟩

/-- C5 counterexample: a branch with exactly two children on which pair decode
nevertheless fails (the key decoder rejects the first child, a branch, when
decoding a pair of strings), refuting "pair decode succeeds exactly when the node
is a list with exactly two children". -/
theorem c5_pair_counterexample :
    (Wood.branchv [.branchv [] 1 1, .leafv "b" 1 3] 1 0).contents.length = 2 ∧
    dewoodify_pair string_dewoodify string_dewoodify
        (.branchv [.branchv [] 1 1, .leafv "b" 1 3] 1 0) =
      .error ⟨1, 1, "sought string, found branch", none⟩ :=
  ⟨rfl, rfl⟩

/-- C9: the two unchecked element accesses in pair decode are always in bounds:
they run only under the guard that the branch's child count equals 2, in which
case the accesses at indices 0 and 1 (modelled by `getD` with an out-of-bounds
stand-in) return the two genuine children of the slice — the stand-in is never
read — and the decode proceeds on exactly those children. -/
theorem c9_pair_unchecked_bounds {κ ω : Type} (kt : Wood → Except DewoodifyError κ)
    (vt : Wood → Except DewoodifyError ω) (lc : List Wood) (l c : Int)
    (h : lc.length = 2) :
    ∃ w0 w1, lc = [w0, w1] ∧ lc.getD 0 oobWood = w0 ∧ lc.getD 1 oobWood = w1 ∧
      w0 ∈ lc ∧ w1 ∈ lc ∧
      dewoodify_pair kt vt (.branchv lc l c) = pairDecodeSteps kt vt w0 w1 := by
  rcases lc with _ | ⟨w0, _ | ⟨w1, rest⟩⟩
  · simp at h
  · simp at h
  · rcases rest with _ | ⟨x, xs⟩
    · exact ⟨w0, w1, rfl, rfl, rfl, by simp, by simp, rfl⟩
    · simp at h

/-- Witness for C9 at the branch holding the leaves "a" and "b". -/
theorem c9_pair_unchecked_bounds_witness :
    ([Wood.leafv "a" 0 0, Wood.leafv "b" 0 1] : List Wood).length = 2 ∧
    ∃ w0 w1, ([Wood.leafv "a" 0 0, Wood.leafv "b" 0 1] : List Wood) = [w0, w1] ∧
      ([Wood.leafv "a" 0 0, Wood.leafv "b" 0 1] : List Wood).getD 0 oobWood = w0 ∧
      ([Wood.leafv "a" 0 0, Wood.leafv "b" 0 1] : List Wood).getD 1 oobWood = w1 ∧
      w0 ∈ ([Wood.leafv "a" 0 0, Wood.leafv "b" 0 1] : List Wood) ∧
      w1 ∈ ([Wood.leafv "a" 0 0, Wood.leafv "b" 0 1] : List Wood) ∧
      dewoodify_pair string_dewoodify string_dewoodify
          (.branchv [Wood.leafv "a" 0 0, Wood.leafv "b" 0 1] 0 0) =
        pairDecodeSteps string_dewoodify string_dewoodify w0 w1 :=
  ⟨rfl, c9_pair_unchecked_bounds string_dewoodify string_dewoodify
    [Wood.leafv "a" 0 0, Wood.leafv "b" 0 1] 0 0 rfl⟩

/-- C7: sequence decode applies the inner decoder to each child in order — when
every child decodes, the result is the ordered list of decoded values, one per
child at the same index — and on the first failing child it returns exactly that
child's error, producing no partial result; sequence encode maps each element
through the inner encoder preserving order into a list. -/
theorem c7_sequence_codec {α : Type} (inner : Wood → Except DewoodifyError α)
    (innerW : α → Wood) :
    (∀ ws : List Wood, (∀ w ∈ ws, ∃ x, inner w = .ok x) →
      ∃ xs, dewoodify_seq_into inner ws [] = .ok xs ∧ xs.length = ws.length ∧
        ∀ i, i < ws.length → ∃ y, xs.get? i = some y ∧ inner (ws.getD i oobWood) = .ok y) ∧
    (∀ (pre : List Wood) (w : Wood) (post : List Wood) (e : DewoodifyError),
      (∀ p ∈ pre, ∃ x, inner p = .ok x) → inner w = .error e →
      dewoodify_seq_into inner (pre ++ w :: post) [] = .error e) ∧
    (∀ l : List α, sequenceTran_woodify innerW l = mkBranch (l.map innerW)) ∧
    (∀ (ws : List Wood) (l c : Int),
      sequenceTran_dewoodify inner (.branchv ws l c) = dewoodify_seq_into inner ws []) := by
  refine ⟨dewoodify_seq_into_all_ok inner, dewoodify_seq_into_fail inner, ?_,
    fun ws l c => rfl⟩
  intro l
  unfold sequenceTran_woodify
  rw [woodify_seq_into_eq]
  rfl

/-- Witness for C7: the branch child at index 1 fails string decode, and the
whole sequence decode returns exactly that error. -/
theorem c7_sequence_codec_witness :
    (∀ p ∈ [Wood.leafv "a" 0 0], ∃ x, string_dewoodify p = .ok x) ∧
    string_dewoodify (Wood.branchv [] 1 1) =
      .error ⟨1, 1, "sought string, found branch", none⟩ ∧
    dewoodify_seq_into string_dewoodify
        ([Wood.leafv "a" 0 0] ++ Wood.branchv [] 1 1 :: [Wood.leafv "b" 0 2]) [] =
      .error ⟨1, 1, "sought string, found branch", none⟩ := by
  have hpre : ∀ p ∈ [Wood.leafv "a" 0 0], ∃ x, string_dewoodify p = .ok x := by
    intro p hp
    rw [List.mem_singleton.mp hp]
    exact ⟨"a", rfl⟩
  exact ⟨hpre, rfl,
    (c7_sequence_codec string_dewoodify string_woodify).2.1
      [Wood.leafv "a" 0 0] (Wood.branchv [] 1 1) [Wood.leafv "b" 0 2] _ hpre rfl⟩

/-- C4: tag-checked decode has exactly three failure shapes, each positioned at
the offending element — (a) empty list, at the whole list; (b) leading branch
instead of leaf, at that child; (c) leading leaf with the wrong text, at that
child, naming both expected and actual — while a matching leading leaf hands
decoding exactly the remaining children (both for the tagged sequence and for the
tagged map), and tagged-sequence encode always prepends the tag leaf to the
encoded payload. -/
theorem c4_tag_checking {α κ ω : Type} [DecidableEq κ] (tag : String)
    (inner : Wood → Except DewoodifyError α) (innerW : α → Wood)
    (ktr : Wood → Except DewoodifyError κ) (vtr : Wood → Except DewoodifyError ω) :
    (∀ l c, ensure_tag (.branchv [] l c) tag =
      .error ⟨l, c, "expected \"" ++ tag ++ "\" at beginning, but the wood was empty",
        none⟩) ∧
    (∀ (bl : List Wood) (l2 c2 : Int) (rest : List Wood) (l c : Int),
      ensure_tag (.branchv (.branchv bl l2 c2 :: rest) l c) tag =
        .error ⟨l2, c2,
          "expected \"" ++ tag ++ "\" here, but instead there was a branch wood", none⟩) ∧
    (∀ (name : String) (l2 c2 : Int) (rest : List Wood) (l c : Int), name ≠ tag →
      ensure_tag (.branchv (.leafv name l2 c2 :: rest) l c) tag =
        .error ⟨l2, c2,
          "expected \"" ++ tag ++ "\" here, but instead there was \"" ++ name ++ "\"",
          none⟩) ∧
    (∀ (l2 c2 : Int) (rest : List Wood) (l c : Int),
      ensure_tag (.branchv (.leafv tag l2 c2 :: rest) l c) tag = .ok rest) ∧
    (∀ (l2 c2 : Int) (rest : List Wood) (l c : Int),
      taggedSequenceTran_dewoodify tag inner (.branchv (.leafv tag l2 c2 :: rest) l c) =
        dewoodify_seq_into inner rest []) ∧
    (∀ (l2 c2 : Int) (rest : List Wood) (l c : Int),
      taggedHashMapBi_dewoodify tag ktr vtr (.branchv (.leafv tag l2 c2 :: rest) l c) =
        (match dewoodify_map ktr vtr rest [] with
         | .ok ret => .ok (hmFromIter ret)
         | .error e => .error e)) ∧
    (∀ xs : List α, taggedSequenceTran_woodify tag innerW xs =
      mkBranch (mkLeaf tag :: xs.map innerW)) := by
  have htag : ∀ (l2 c2 : Int) (rest : List Wood) (l c : Int),
      ensure_tag (.branchv (.leafv tag l2 c2 :: rest) l c) tag = .ok rest := by
    intro l2 c2 rest l c
    simp [ensure_tag, Wood.contents]
  refine ⟨fun l c => rfl, fun bl l2 c2 rest l c => rfl, ?_, htag, ?_, ?_, ?_⟩
  · intro name l2 c2 rest l c h
    simp [ensure_tag, Wood.contents, h, DewoodifyError.new_with_cause, Wood.line_and_col]
  · intro l2 c2 rest l c
    simp only [taggedSequenceTran_dewoodify, htag]
  · intro l2 c2 rest l c
    simp only [taggedHashMapBi_dewoodify, htag]
  · intro xs
    unfold taggedSequenceTran_woodify
    rw [woodify_seq_into_eq]
    rfl

/-- Witness for C4 at the mismatched tag: a list starting with the leaf "a" where
the tag "ob" is expected. -/
theorem c4_tag_checking_witness :
    ("a" : String) ≠ "ob" ∧
    ensure_tag (.branchv [.leafv "a" 2 3, .leafv "b" 2 5] 2 0) "ob" =
      .error ⟨2, 3, "expected \"ob\" here, but instead there was \"a\"", none⟩ :=
  ⟨by decide,
    (c4_tag_checking "ob" string_dewoodify string_woodify string_dewoodify
        string_dewoodify).2.2.1 "a" 2 3 [.leafv "b" 2 5] 2 0 (by decide)⟩

/-- C10: when every child of the list decodes as a well-formed 2-child pair (the
decoded entries being `ps`) and at least two of those pairs carry the key `k`,
map decode succeeds — no duplicate-key error exists — and the built map binds `k`
to the value of the last pair with key `k` in list order (last-write-wins,
`HashMap::from_iter` inserting in order). -/
theorem c10_map_last_write_wins {κ ω : Type} [DecidableEq κ]
    (ktr : Wood → Except DewoodifyError κ) (vtr : Wood → Except DewoodifyError ω)
    (children : List Wood) (l c : Int) (ps : List (κ × ω)) (k : κ) (pr : κ × ω)
    (h1 : dewoodify_map ktr vtr children [] = .ok ps)
    (_h2 : 2 ≤ (ps.filter (fun p => p.1 = k)).length)
    (h3 : (ps.filter (fun p => p.1 = k)).getLast? = some pr) :
    hashMapBi_dewoodify ktr vtr (.branchv children l c) = .ok (hmFromIter ps) ∧
    hmGet (hmFromIter ps) k = some pr.2 := by
  constructor
  · unfold hashMapBi_dewoodify
    have hc : (Wood.branchv children l c).contents = children := rfl
    rw [hc, h1]
  · rw [hmGet_hmFromIter, ← filter_getLast_eq_reverse_find, h3]
    rfl

/-- Witness for C10 at the children ((a b) (a c)) decoding as pairs of strings:
the duplicate key "a" raises no error and maps to "c", the last value. -/
theorem c10_map_last_write_wins_witness :
    dewoodify_map string_dewoodify string_dewoodify
        [Wood.branchv [.leafv "a" 1 0, .leafv "b" 1 2] 1 0,
         Wood.branchv [.leafv "a" 2 0, .leafv "c" 2 2] 2 0] [] =
      .ok [("a", "b"), ("a", "c")] ∧
    2 ≤ (([("a", "b"), ("a", "c")] : List (String × String)).filter
      (fun p => p.1 = "a")).length ∧
    (([("a", "b"), ("a", "c")] : List (String × String)).filter
      (fun p => p.1 = "a")).getLast? = some ("a", "c") ∧
    (hashMapBi_dewoodify string_dewoodify string_dewoodify
        (.branchv [Wood.branchv [.leafv "a" 1 0, .leafv "b" 1 2] 1 0,
          Wood.branchv [.leafv "a" 2 0, .leafv "c" 2 2] 2 0] 0 0) =
      .ok (hmFromIter [("a", "b"), ("a", "c")]) ∧
    hmGet (hmFromIter [("a", "b"), ("a", "c")]) "a" = some ("a", "c").2) :=
  ⟨rfl, by decide, by decide,
    c10_map_last_write_wins string_dewoodify string_dewoodify
      [Wood.branchv [.leafv "a" 1 0, .leafv "b" 1 2] 1 0,
       Wood.branchv [.leafv "a" 2 0, .leafv "c" 2 2] 2 0] 0 0
      [("a", "b"), ("a", "c")] "a" ("a", "c") rfl (by decide) (by decide)⟩

/-- C2 (amended): whenever some child's leading text equals the key and the eye
starts in bounds, seek stops at a matched child j and returns the node
immediately following the key text inside that child — the first element of the
matched child's own tail, not the next sibling of the children list — failing
with the no-tail error positioned at the matched child when its tail is empty,
and it leaves the eye at the matched index j (not advanced past it). -/
theorem c2_seek_amended (s : FieldScanning) (key : String)
    (heye : s.eye < s.li.length)
    (hmatch : ∃ c ∈ s.li, c.initial_str = key) :
    ∃ j, j < s.li.length ∧ (s.li.getD j oobWood).initial_str = key ∧
      (s.seek key).1 = seekHit (s.li.getD j oobWood) ∧
      (s.seek key).2.1 = j := by
  obtain ⟨c, hc, hck⟩ := hmatch
  obtain ⟨⟨j0, hj0⟩, hj0e⟩ := List.mem_iff_get.mp hc
  have hG : s.li.getD j0 oobWood = c := by
    rw [getD_of_lt _ _ _ hj0]
    exact hj0e
  have hex : ∃ i, i < s.li.length ∧
      (s.li.getD ((s.eye + i) % s.li.length) oobWood).initial_str = key := by
    refine ⟨(j0 + s.li.length - s.eye) % s.li.length, Nat.mod_lt _ (by omega), ?_⟩
    rw [scan_index_roundtrip s.li.length s.eye j0 heye hj0, hG]
    exact hck
  exact seekGo_match s.v s.li key s.li.length s.eye heye hex

/-- Witness for C2 (amended): the children ((k v) w) hold the pair (k v); seeking
"k" returns the in-pair value v, not the sibling w, and leaves the eye at 0. -/
theorem c2_seek_amended_witness :
    (FieldScanning.new
        (.branchv [.leafv "S" 0 0,
          .branchv [.leafv "k" 1 0, .leafv "v" 1 2] 1 0, .leafv "w" 1 4] 0 0)).eye <
      (FieldScanning.new
        (.branchv [.leafv "S" 0 0,
          .branchv [.leafv "k" 1 0, .leafv "v" 1 2] 1 0, .leafv "w" 1 4] 0 0)).li.length ∧
    (∃ c ∈ (FieldScanning.new
        (.branchv [.leafv "S" 0 0,
          .branchv [.leafv "k" 1 0, .leafv "v" 1 2] 1 0, .leafv "w" 1 4] 0 0)).li,
      c.initial_str = "k") ∧
    ∃ j, j < (FieldScanning.new
        (.branchv [.leafv "S" 0 0,
          .branchv [.leafv "k" 1 0, .leafv "v" 1 2] 1 0, .leafv "w" 1 4] 0 0)).li.length ∧
      ((FieldScanning.new
        (.branchv [.leafv "S" 0 0,
          .branchv [.leafv "k" 1 0, .leafv "v" 1 2] 1 0, .leafv "w" 1 4] 0 0)).li.getD j
        oobWood).initial_str = "k" ∧
      ((FieldScanning.new
        (.branchv [.leafv "S" 0 0,
          .branchv [.leafv "k" 1 0, .leafv "v" 1 2] 1 0, .leafv "w" 1 4] 0 0)).seek "k").1 =
        seekHit ((FieldScanning.new
        (.branchv [.leafv "S" 0 0,
          .branchv [.leafv "k" 1 0, .leafv "v" 1 2] 1 0, .leafv "w" 1 4] 0 0)).li.getD j
          oobWood) ∧
      ((FieldScanning.new
        (.branchv [.leafv "S" 0 0,
          .branchv [.leafv "k" 1 0, .leafv "v" 1 2] 1 0, .leafv "w" 1 4] 0 0)).seek "k").2.1 =
        j := by
  refine ⟨by decide,
    ⟨.branchv [.leafv "k" 1 0, .leafv "v" 1 2] 1 0, by exact List.mem_cons_self _ _, rfl⟩, ?_⟩
  exact c2_seek_amended
    (FieldScanning.new
      (.branchv [.leafv "S" 0 0,
        .branchv [.leafv "k" 1 0, .leafv "v" 1 2] 1 0, .leafv "w" 1 4] 0 0)) "k"
    (by decide)
    ⟨.branchv [.leafv "k" 1 0, .leafv "v" 1 2] 1 0, by exact List.mem_cons_self _ _, rfl⟩

/-- C2 counterexample: in the children (k w) the child at index 0 has leading
text "k" and a following sibling (the leaf w at index 1) exists in the list, yet
seek("k") does not return that sibling — it fails with the no-tail error at the
matched child, because the value is sought inside the matched child's own tail,
not among its siblings. -/
theorem c2_seek_counterexample :
    ((FieldScanning.new
        (.branchv [.leafv "S" 0 0, .leafv "k" 1 2, .leafv "w" 1 4] 0 0)).li.getD 0
      oobWood).initial_str = "k" ∧
    (FieldScanning.new
        (.branchv [.leafv "S" 0 0, .leafv "k" 1 2, .leafv "w" 1 4] 0 0)).li.getD 1
      oobWood = .leafv "w" 1 4 ∧
    ((FieldScanning.new
        (.branchv [.leafv "S" 0 0, .leafv "k" 1 2, .leafv "w" 1 4] 0 0)).seek "k").1 =
      .error ⟨1, 2, "expected a subwood, but the wood has no tail", none⟩ :=
  ⟨rfl, rfl, rfl⟩

/-- C8: when no child's leading text equals the key and the eye starts in bounds,
seek fails with the could-not-find-key error positioned at the whole list, the
eye ends where it started, and the loop's examination trace covers the whole
children list in one pass — it has exactly one entry per index (each child
examined exactly once, starting at the eye and wrapping past the end) and every
examined index is a real child index. -/
theorem c8_seek_full_scan (s : FieldScanning) (key : String)
    (hno : ∀ c ∈ s.li, c.initial_str ≠ key) (heye : s.eye < s.li.length) :
    (s.seek key).1 =
      .error (DewoodifyError.new s.v ("could not find key \"" ++ key ++ "\"")) ∧
    (s.seek key).2.1 = s.eye ∧
    (s.seek key).2.2 = (List.range s.li.length).map (fun i => (s.eye + i) % s.li.length) ∧
    (s.seek key).2.2.length = s.li.length ∧
    (∀ j, j < s.li.length → (s.seek key).2.2.count j = 1) ∧
    (∀ j, j ∈ (s.seek key).2.2 → j < s.li.length) := by
  have hlen0 : 0 < s.li.length := by omega
  have hseek : s.seek key =
      (.error (DewoodifyError.new s.v ("could not find key \"" ++ key ++ "\"")),
       (s.eye + s.li.length) % s.li.length,
       (List.range s.li.length).map (fun i => (s.eye + i) % s.li.length)) :=
    seekGo_nomatch s.v s.li key hno s.li.length s.eye heye
  have heyefin : (s.eye + s.li.length) % s.li.length = s.eye := by
    rw [Nat.add_mod_right, Nat.mod_eq_of_lt heye]
  have hnodup : ((List.range s.li.length).map
      (fun i => (s.eye + i) % s.li.length)).Nodup := by
    apply List.Nodup.map_on ?_ (List.nodup_range _)
    intro x hx y hy hf
    simp only [List.mem_range] at hx hy
    have h2 : Nat.ModEq s.li.length (s.eye + x) (s.eye + y) := hf
    have h3 := Nat.ModEq.add_left_cancel' s.eye h2
    have h4 : x % s.li.length = y % s.li.length := h3
    rwa [Nat.mod_eq_of_lt hx, Nat.mod_eq_of_lt hy] at h4
  have hmem : ∀ j, j < s.li.length →
      j ∈ (List.range s.li.length).map (fun i => (s.eye + i) % s.li.length) := by
    intro j hj
    refine List.mem_map.mpr ⟨(j + s.li.length - s.eye) % s.li.length,
      List.mem_range.mpr (Nat.mod_lt _ hlen0), ?_⟩
    exact scan_index_roundtrip s.li.length s.eye j heye hj
  refine ⟨by rw [hseek], by rw [hseek]; exact heyefin, by rw [hseek], ?_, ?_, ?_⟩
  · rw [hseek]
    simp
  · intro j hj
    rw [hseek]
    exact List.count_eq_one_of_mem hnodup (hmem j hj)
  · intro j hjmem
    rw [hseek] at hjmem
    obtain ⟨i, _, rfl⟩ := List.mem_map.mp hjmem
    exact Nat.mod_lt _ hlen0

/-- Witness for C8: the children (a b) contain no leading text "z"; seeking "z"
fails with the key-not-found error at the list's position, leaves the eye at 0,
and the trace [0, 1] examines each child exactly once. -/
theorem c8_seek_full_scan_witness :
    (∀ c ∈ (FieldScanning.new
        (.branchv [.leafv "S" 0 0, .leafv "a" 1 0, .leafv "b" 1 2] 0 0)).li,
      c.initial_str ≠ "z") ∧
    (FieldScanning.new
        (.branchv [.leafv "S" 0 0, .leafv "a" 1 0, .leafv "b" 1 2] 0 0)).eye <
      (FieldScanning.new
        (.branchv [.leafv "S" 0 0, .leafv "a" 1 0, .leafv "b" 1 2] 0 0)).li.length ∧
    (((FieldScanning.new
        (.branchv [.leafv "S" 0 0, .leafv "a" 1 0, .leafv "b" 1 2] 0 0)).seek "z").1 =
      .error (DewoodifyError.new
        (.branchv [.leafv "S" 0 0, .leafv "a" 1 0, .leafv "b" 1 2] 0 0)
        ("could not find key \"" ++ "z" ++ "\"")) ∧
    ((FieldScanning.new
        (.branchv [.leafv "S" 0 0, .leafv "a" 1 0, .leafv "b" 1 2] 0 0)).seek "z").2.1 =
      (FieldScanning.new
        (.branchv [.leafv "S" 0 0, .leafv "a" 1 0, .leafv "b" 1 2] 0 0)).eye ∧
    ((FieldScanning.new
        (.branchv [.leafv "S" 0 0, .leafv "a" 1 0, .leafv "b" 1 2] 0 0)).seek "z").2.2 =
      (List.range (FieldScanning.new
        (.branchv [.leafv "S" 0 0, .leafv "a" 1 0, .leafv "b" 1 2] 0 0)).li.length).map
        (fun i => ((FieldScanning.new
          (.branchv [.leafv "S" 0 0, .leafv "a" 1 0, .leafv "b" 1 2] 0 0)).eye + i) %
          (FieldScanning.new
            (.branchv [.leafv "S" 0 0, .leafv "a" 1 0, .leafv "b" 1 2] 0 0)).li.length) ∧
    ((FieldScanning.new
        (.branchv [.leafv "S" 0 0, .leafv "a" 1 0, .leafv "b" 1 2] 0 0)).seek "z").2.2.length =
      (FieldScanning.new
        (.branchv [.leafv "S" 0 0, .leafv "a" 1 0, .leafv "b" 1 2] 0 0)).li.length ∧
    (∀ j, j < (FieldScanning.new
        (.branchv [.leafv "S" 0 0, .leafv "a" 1 0, .leafv "b" 1 2] 0 0)).li.length →
      ((FieldScanning.new
        (.branchv [.leafv "S" 0 0, .leafv "a" 1 0, .leafv "b" 1 2] 0 0)).seek "z").2.2.count j = 1) ∧
    (∀ j, j ∈ ((FieldScanning.new
        (.branchv [.leafv "S" 0 0, .leafv "a" 1 0, .leafv "b" 1 2] 0 0)).seek "z").2.2 →
      j < (FieldScanning.new
        (.branchv [.leafv "S" 0 0, .leafv "a" 1 0, .leafv "b" 1 2] 0 0)).li.length)) :=
  ⟨by decide, by decide,
    c8_seek_full_scan
      (FieldScanning.new (.branchv [.leafv "S" 0 0, .leafv "a" 1 0, .leafv "b" 1 2] 0 0))
      "z" (by decide) (by decide)⟩
